import Mathlib

/-!
Verification development for the mdtext binary text-database engine.

Byte buffers are modelled as `List Nat` (each element one byte value); a
Python `str` is modelled by its UTF-8 byte sequence, so `str.encode` /
`bytes.decode` are identities of the model.  Machine arithmetic that the
source performs on unbounded Python ints is kept on `Nat`/`Int`, with
explicit `% 256` / masking exactly where the source masks.

The DEFLATE layer (`zlib.compress` / `zlib.decompress`) is an external
library, not code of this repository; the cipher functions are therefore
parametrised by the compressor and the decompressor, and round-trip
statements take the library's documented round-trip contract as a
hypothesis.
-/

namespace Mdtext

/-! ## StreamCipher: src/core/decryptor.py -/

/-- Keystream byte for index `i` under `key`, from `_xor_transform`:
`v = i + key + 0x23D; v *= key; v ^= i % 7; v & 0xFF`. -/
def keystreamByte (key i : Nat) : Nat :=
  ((i + key + 0x23D) * key ^^^ i % 7) &&& 0xFF

/-- The indexed loop body of `_xor_transform`: byte `i` of the buffer is
XORed with the keystream byte for `i`. -/
def xorTransformFrom (key : Nat) : Nat → List Nat → List Nat
  | _, [] => []
  | i, b :: rest => (b ^^^ keystreamByte key i) :: xorTransformFrom key (i + 1) rest

/-- `_xor_transform(buf, key)` from src/core/decryptor.py. -/
def xor_transform (buf : List Nat) (key : Nat) : List Nat :=
  xorTransformFrom key 0 buf

/-- `decrypt_bytes(data, key)`: XOR transform, then `zlib.decompress`.
The decompressor is a parameter (external library); `none` models
`zlib.error`. -/
def decrypt_bytes (decompress : List Nat → Option (List Nat))
    (data : List Nat) (key : Nat) : Option (List Nat) :=
  decompress (xor_transform data key)

/-- `encrypt_bytes(plaintext, key)`: `zlib.compress`, then XOR transform. -/
def encrypt_bytes (compress : List Nat → List Nat)
    (plaintext : List Nat) (key : Nat) : List Nat :=
  xor_transform (compress plaintext) key

/-- The `while True` loop of `find_key_for_encrypted_bytes(data, start_key)`,
given a fuel bound: tries `key`, returns it on success, else `key + 1`.
`tryDecode data key` models "`decrypt_bytes(data, key)` does not raise".
The source loop has no bound at all; `find_key_loop ... fuel = none` states
that the loop is still running after `fuel` iterations. -/
def find_key_loop (tryDecode : List Nat → Nat → Bool) (data : List Nat) :
    Nat → Nat → Option Nat
  | _, 0 => none
  | key, fuel + 1 =>
    if tryDecode data key then some key else find_key_loop tryDecode data (key + 1) fuel

theorem xorTransformFrom_involutive (key : Nat) :
    ∀ (i : Nat) (buf : List Nat), xorTransformFrom key i (xorTransformFrom key i buf) = buf := by
  intro i buf
  induction buf generalizing i with
  | nil => rfl
  | cons b rest ih =>
    simp only [xorTransformFrom, ih]
    rw [Nat.xor_assoc, Nat.xor_self, Nat.xor_zero]

theorem xor_transform_involutive (buf : List Nat) (key : Nat) :
    xor_transform (xor_transform buf key) key = buf :=
  xorTransformFrom_involutive key 0 buf

/-- C1: for every byte buffer `b` and key `k`, decoding the encoded buffer
with the same key returns `b` exactly, given the decompressor inverts the
compressor (the documented zlib contract): the keystream XOR is
self-inverse, so `decrypt_bytes (encrypt_bytes b k) k = some b`. -/
theorem encode_decode_roundtrip
    (compress : List Nat → List Nat) (decompress : List Nat → Option (List Nat))
    (hzlib : ∀ b, decompress (compress b) = some b)
    (b : List Nat) (k : Nat) :
    decrypt_bytes decompress (encrypt_bytes compress b k) k = some b := by
  unfold decrypt_bytes encrypt_bytes
  rw [xor_transform_involutive, hzlib]

/-- Witness for C1 at a concrete buffer and key, with identity compression. -/
theorem encode_decode_roundtrip_witness :
    decrypt_bytes some (encrypt_bytes id [1, 2, 3] 5) 5 = some [1, 2, 3] :=
  encode_decode_roundtrip id some (fun _ => rfl) [1, 2, 3] 5

theorem xorTransformFrom_get? (key : Nat) :
    ∀ (i j : Nat) (buf : List Nat),
      (xorTransformFrom key i buf).get? j =
        (buf.get? j).map (fun b => b ^^^ keystreamByte key (i + j)) := by
  intro i j buf
  induction buf generalizing i j with
  | nil => simp [xorTransformFrom]
  | cons b rest ih =>
    cases j with
    | zero => simp [xorTransformFrom]
    | succ j =>
      simp only [xorTransformFrom, List.get?_cons_succ, ih (i + 1) j]
      have : i + 1 + j = i + (j + 1) := by omega
      rw [this]

/-- C4: `decrypt_bytes` XORs into byte `i` the keystream byte
`((i + key + 0x23D) * key) XOR (i mod 7)` truncated to its low 8 bits and
then decompresses, and it fails exactly when the decompressor rejects the
transformed buffer — decompression failure is the only validity signal. -/
theorem decrypt_bytes_spec (decompress : List Nat → Option (List Nat))
    (data : List Nat) (key : Nat) :
    (∀ i, (xor_transform data key).get? i =
        (data.get? i).map
          (fun b => b ^^^ ((i + key + 0x23D) * key ^^^ i % 7) &&& 0xFF)) ∧
      decrypt_bytes decompress data key = decompress (xor_transform data key) ∧
      (decrypt_bytes decompress data key = none ↔
        decompress (xor_transform data key) = none) := by
  refine ⟨fun i => ?_, rfl, Iff.rfl⟩
  have h := xorTransformFrom_get? key 0 i data
  simpa [xor_transform, keystreamByte] using h

/-- C3 model: if no key ever makes the buffer decompress, the key-search
loop of `find_key_for_encrypted_bytes` never returns, whatever the start
key and however many iterations are allowed: the source has no max-trials
parameter and loops forever. -/
theorem find_key_loop_diverges (tryDecode : List Nat → Nat → Bool) (data : List Nat)
    (hfail : ∀ k, tryDecode data k = false) :
    ∀ fuel start, find_key_loop tryDecode data start fuel = none := by
  intro fuel
  induction fuel with
  | zero => intro start; rfl
  | succ n ih =>
    intro start
    simp only [find_key_loop, hfail start, if_false]
    exact ih (start + 1)

/-- Witness for the C3 divergence theorem at a concrete predicate/buffer. -/
theorem find_key_loop_diverges_witness :
    find_key_loop (fun _ _ => false) [] 0 5 = none :=
  find_key_loop_diverges (fun _ _ => false) [] (fun _ => rfl) 5 0

/-! ## PartTableCodec: src/core/part_parser.py -/

/-- One iteration of the `for i in range(4, len(pidx), 4)` loop of
`get_pidx_table`: read bytes `i`, `i+1`, `i+3` and write
`(pidx[i] + pidx[i+1]*256, divmod(pidx[i+3], 16))` into slot `i // 4`.
`none` models Python `IndexError` (byte read past the end, or a table
write out of range). -/
def pidxWrite (pidx : List Nat) (table : List (Nat × Nat × Nat)) (i : Nat) :
    Option (List (Nat × Nat × Nat)) :=
  match pidx.get? i, pidx.get? (i + 1), pidx.get? (i + 3) with
  | some b0, some b1, some b3 =>
    if i / 4 < table.length then
      some (table.set (i / 4) (b0 + b1 * 256, b3 / 16, b3 % 16))
    else none
  | _, _, _ => none

/-- The `get_pidx_table` loop, iterating `n` times starting at byte offset
`s` and stepping by 4 (`for i in range(4, len(pidx), 4)` is `s = 4`,
`n = (len(pidx) - 4 + 3) / 4`). -/
def pidxLoop (pidx : List Nat) : Nat → Nat → List (Nat × Nat × Nat) →
    Option (List (Nat × Nat × Nat))
  | _, 0, table => some table
  | s, n + 1, table =>
    match pidxWrite pidx table s with
    | some t => pidxLoop pidx (s + 4) n t
    | none => none

/-- `get_pidx_table` from src/core/part_parser.py, on the pidx file's byte
content.  `none` models an uncaught `IndexError`: `pidx_table[0] = (0,0,0)`
on an empty table, or a failing iteration.  The Python table is pre-filled
with `None` placeholders; in every successfully returned table each slot
has been written (slot 0 with the `(0, 0, 0)` sentinel, the others by the
loop), so the placeholder is never observable and is modelled as
`(0, 0, 0)`. -/
def get_pidx_table (pidx : List Nat) : Option (List (Nat × Nat × Nat)) :=
  let size := pidx.length / 4
  if size = 0 then none
  else
    match pidxLoop pidx 4 ((pidx.length - 4 + 3) / 4)
        ((List.replicate size (0, 0, 0)).set 0 (0, 0, 0)) with
    | some t => some (t.drop 1)
    | none => none

/-- The 4-byte pidx group at group offset `g`, decoded as
`(pointer = bytes 0-1 little-endian, byte 3 div 16, byte 3 mod 16)`. -/
def pidxEntry? (pidx : List Nat) (g : Nat) : Option (Nat × Nat × Nat) :=
  match pidx.get? (4 * g), pidx.get? (4 * g + 1), pidx.get? (4 * g + 3) with
  | some b0, some b1, some b3 => some (b0 + b1 * 256, b3 / 16, b3 % 16)
  | _, _, _ => none

/-- One 4-byte group of the `Part` buffer at group offset `j`:
`(part[4j] + part[4j+1]*256, part[4j+2] + part[4j+3]*256)`; `none` models
`IndexError`. -/
def readRange (part : List Nat) (j : Nat) : Option (Nat × Nat) :=
  match part.get? (4 * j), part.get? (4 * j + 1), part.get? (4 * j + 2),
      part.get? (4 * j + 3) with
  | some l0, some l1, some h0, some h1 => some (l0 + l1 * 256, h0 + h1 * 256)
  | _, _, _, _ => none

/-- The inner `for j in range(a, a + b + c)` loop of `get_part_table`:
read `cnt` consecutive groups starting at group offset `a`. -/
def rangeReads (part : List Nat) : Nat → Nat → Option (List (Nat × Nat))
  | _, 0 => some []
  | a, cnt + 1 =>
    match readRange part a, rangeReads part (a + 1) cnt with
    | some r, some rs => some (r :: rs)
    | _, _ => none

/-- One row of `get_part_table`: an all-zero pidx entry is skipped (its row
stays the empty list), otherwise groups `a .. a+b+c-1` are read. -/
def part_row (part : List Nat) : Nat × Nat × Nat → Option (List (Nat × Nat))
  | (a, b, c) => if a = 0 ∧ b = 0 ∧ c = 0 then some [] else rangeReads part a (b + c)

/-- `get_part_table` from src/core/part_parser.py, over the part file's
byte content and a decoded pidx table. -/
def get_part_table (part : List Nat) :
    List (Nat × Nat × Nat) → Option (List (List (Nat × Nat)))
  | [] => some []
  | e :: rest =>
    match part_row part e, get_part_table part rest with
    | some row, some rows => some (row :: rows)
    | _, _ => none

theorem pidxWrite_eq_some (pidx : List Nat) (table : List (Nat × Nat × Nat))
    (s : Nat) (t : List (Nat × Nat × Nat)) :
    pidxWrite pidx table s = some t ↔
      ∃ b0 b1 b3, pidx.get? s = some b0 ∧ pidx.get? (s + 1) = some b1 ∧
        pidx.get? (s + 3) = some b3 ∧ s / 4 < table.length ∧
        t = table.set (s / 4) (b0 + b1 * 256, b3 / 16, b3 % 16) := by
  unfold pidxWrite
  cases h0 : pidx.get? s <;> cases h1 : pidx.get? (s + 1) <;>
    cases h3 : pidx.get? (s + 3) <;> simp
  intro _
  exact eq_comm

theorem pidxLoop_length (pidx : List Nat) :
    ∀ (n s : Nat) (table t : List (Nat × Nat × Nat)),
      pidxLoop pidx s n table = some t → t.length = table.length := by
  intro n
  induction n with
  | zero =>
    intro s table t h
    cases h
    rfl
  | succ n ih =>
    intro s table t h
    simp only [pidxLoop] at h
    cases hw : pidxWrite pidx table s with
    | none => rw [hw] at h; exact absurd h (by simp)
    | some t' =>
      rw [hw] at h
      obtain ⟨b0, b1, b3, _, _, _, _, rfl⟩ := (pidxWrite_eq_some pidx table s t').mp hw
      rw [ih (s + 4) _ t h, List.length_set]

theorem pidxLoop_get?_lt (pidx : List Nat) :
    ∀ (n s : Nat) (table t : List (Nat × Nat × Nat)), 4 ∣ s →
      pidxLoop pidx s n table = some t →
      ∀ k, 4 * k < s → t.get? k = table.get? k := by
  intro n
  induction n with
  | zero =>
    intro s table t _ h k _
    cases h
    rfl
  | succ n ih =>
    intro s table t hs h k hk
    simp only [pidxLoop] at h
    cases hw : pidxWrite pidx table s with
    | none => rw [hw] at h; exact absurd h (by simp)
    | some t' =>
      rw [hw] at h
      obtain ⟨b0, b1, b3, _, _, _, hlt, rfl⟩ := (pidxWrite_eq_some pidx table s t').mp hw
      rw [ih (s + 4) _ t (by omega) h k (by omega)]
      exact List.get?_set_ne _ table (by omega)

theorem pidxLoop_get?_written (pidx : List Nat) :
    ∀ (n s : Nat) (table t : List (Nat × Nat × Nat)), 4 ∣ s →
      pidxLoop pidx s n table = some t →
      ∀ k, s ≤ 4 * k → 4 * k < s + 4 * n → t.get? k = pidxEntry? pidx k := by
  intro n
  induction n with
  | zero =>
    intro s table t _ _ k h1 h2
    omega
  | succ n ih =>
    intro s table t hs h k hk1 hk2
    simp only [pidxLoop] at h
    cases hw : pidxWrite pidx table s with
    | none => rw [hw] at h; exact absurd h (by simp)
    | some t' =>
      rw [hw] at h
      obtain ⟨b0, b1, b3, h0, h1, h3, hlt, rfl⟩ := (pidxWrite_eq_some pidx table s t').mp hw
      by_cases hk : 4 * k = s
      · rw [pidxLoop_get?_lt pidx n (s + 4) _ t (by omega) h k (by omega)]
        have hdiv : s / 4 = k := by omega
        rw [hdiv] at hlt ⊢
        rw [List.get?_set_of_lt _ table hlt, if_pos rfl]
        unfold pidxEntry?
        rw [show 4 * k = s from hk, h0, h1, h3]
      · exact ih (s + 4) _ t (by omega) h k (by omega) (by omega)

theorem pidxLoop_read_in_bounds (pidx : List Nat) :
    ∀ (n s : Nat) (table t : List (Nat × Nat × Nat)),
      pidxLoop pidx s n table = some t →
      ∀ m, m < n → s + 4 * m + 3 < pidx.length := by
  intro n
  induction n with
  | zero =>
    intro s table t _ m hm
    omega
  | succ n ih =>
    intro s table t h m hm
    simp only [pidxLoop] at h
    cases hw : pidxWrite pidx table s with
    | none => rw [hw] at h; exact absurd h (by simp)
    | some t' =>
      rw [hw] at h
      obtain ⟨b0, b1, b3, h0, h1, h3, hlt, rfl⟩ := (pidxWrite_eq_some pidx table s t').mp hw
      cases m with
      | zero =>
        obtain ⟨hb, -⟩ := List.get?_eq_some.mp h3
        simpa using hb
      | succ m =>
        have := ih (s + 4) _ t h m (by omega)
        omega

theorem pidxLoop_success (pidx : List Nat) (hlen : pidx.length % 4 = 0) :
    ∀ (n s : Nat) (table : List (Nat × Nat × Nat)), 4 ∣ s → 0 < s →
      table.length = pidx.length / 4 → s + 4 * n = pidx.length →
      ∃ t, pidxLoop pidx s n table = some t := by
  intro n
  induction n with
  | zero =>
    intro s table _ _ _ _
    exact ⟨table, rfl⟩
  | succ n ih =>
    intro s table hs hpos htl hsum
    have hb0 : s < pidx.length := by omega
    have hb1 : s + 1 < pidx.length := by omega
    have hb3 : s + 3 < pidx.length := by omega
    have h0 := List.get?_eq_get hb0
    have h1 := List.get?_eq_get hb1
    have h3 := List.get?_eq_get hb3
    have hslot : s / 4 < table.length := by rw [htl]; omega
    have hw : pidxWrite pidx table s =
        some (table.set (s / 4)
          (pidx.get ⟨s, hb0⟩ + pidx.get ⟨s + 1, hb1⟩ * 256,
           pidx.get ⟨s + 3, hb3⟩ / 16, pidx.get ⟨s + 3, hb3⟩ % 16)) :=
      (pidxWrite_eq_some pidx table s _).mpr ⟨_, _, _, h0, h1, h3, hslot, rfl⟩
    obtain ⟨t, ht⟩ := ih (s + 4)
      (table.set (s / 4)
        (pidx.get ⟨s, hb0⟩ + pidx.get ⟨s + 1, hb1⟩ * 256,
         pidx.get ⟨s + 3, hb3⟩ / 16, pidx.get ⟨s + 3, hb3⟩ % 16))
      (by omega) (by omega) (by rw [List.length_set]; exact htl) (by omega)
    exact ⟨t, by simp only [pidxLoop]; rw [hw]; exact ht⟩

/-- C10: the pidx decoder is not total.  On the empty buffer the
`pidx_table[0] = (0, 0, 0)` write raises `IndexError` (modelled `none`)
instead of returning an empty table, while every buffer whose length is a
nonzero multiple of 4 decodes without raising to exactly
`length / 4 - 1` entries. -/
theorem get_pidx_table_totality :
    get_pidx_table [] = none ∧
      ∀ pidx : List Nat, pidx.length ≠ 0 → pidx.length % 4 = 0 →
        ∃ t, get_pidx_table pidx = some t ∧ t.length = pidx.length / 4 - 1 := by
  refine ⟨rfl, fun pidx hne hmod => ?_⟩
  have hsize : ¬pidx.length / 4 = 0 := by omega
  obtain ⟨t0, ht0⟩ := pidxLoop_success pidx hmod ((pidx.length - 4 + 3) / 4) 4
    ((List.replicate (pidx.length / 4) (0, 0, 0)).set 0 (0, 0, 0)) ⟨1, rfl⟩ (by omega)
    (by rw [List.length_set, List.length_replicate]) (by omega)
  have hlen0 : t0.length = pidx.length / 4 := by
    rw [pidxLoop_length pidx _ 4 _ t0 ht0, List.length_set, List.length_replicate]
  refine ⟨t0.drop 1, ?_, ?_⟩
  · unfold get_pidx_table
    rw [if_neg hsize, ht0]
  · rw [List.length_drop, hlen0]

theorem get_pidx_table_length_mod (pidx : List Nat) (t : List (Nat × Nat × Nat))
    (h : get_pidx_table pidx = some t) :
    pidx.length % 4 = 0 ∧ 4 ≤ pidx.length := by
  unfold get_pidx_table at h
  by_cases hz : pidx.length / 4 = 0
  · rw [if_pos hz] at h
    exact absurd h (by simp)
  · rw [if_neg hz] at h
    cases hl : pidxLoop pidx 4 ((pidx.length - 4 + 3) / 4)
        ((List.replicate (pidx.length / 4) (0, 0, 0)).set 0 (0, 0, 0)) with
    | none => rw [hl] at h; exact absurd h (by simp)
    | some t0 =>
      by_cases hn : (pidx.length - 4 + 3) / 4 = 0
      · constructor <;> omega
      · have hb := pidxLoop_read_in_bounds pidx _ 4 _ t0 hl
          ((pidx.length - 4 + 3) / 4 - 1) (by omega)
        constructor <;> omega

theorem get_pidx_table_get? (pidx : List Nat) (t : List (Nat × Nat × Nat))
    (h : get_pidx_table pidx = some t) :
    ∀ k, t.get? k = pidxEntry? pidx (k + 1) := by
  intro k
  obtain ⟨hmod, hge⟩ := get_pidx_table_length_mod pidx t h
  unfold get_pidx_table at h
  rw [if_neg (by omega)] at h
  cases hl : pidxLoop pidx 4 ((pidx.length - 4 + 3) / 4)
      ((List.replicate (pidx.length / 4) (0, 0, 0)).set 0 (0, 0, 0)) with
  | none => rw [hl] at h; exact absurd h (by simp)
  | some t0 =>
    rw [hl] at h
    have ht : t = t0.drop 1 := by
      have := Option.some_inj.mp h
      exact this.symm
    subst ht
    have hlen0 : t0.length = pidx.length / 4 := by
      rw [pidxLoop_length pidx _ 4 _ t0 hl, List.length_set, List.length_replicate]
    rw [List.get?_drop]
    by_cases hk : 4 * (k + 1) + 3 < pidx.length
    · have hw := pidxLoop_get?_written pidx ((pidx.length - 4 + 3) / 4) 4 _ t0 ⟨1, rfl⟩
        hl (k + 1) (by omega) (by omega)
      rwa [show 1 + k = k + 1 from by omega]
    · have h3 : pidx.get? (4 * (k + 1) + 3) = none := List.get?_eq_none.mpr (by omega)
      have hleft : t0.get? (1 + k) = none := List.get?_eq_none.mpr (by omega)
      rw [hleft]
      unfold pidxEntry?
      rw [h3]
      cases pidx.get? (4 * (k + 1)) <;> cases pidx.get? (4 * (k + 1) + 1) <;> rfl

theorem rangeReads_spec (part : List Nat) :
    ∀ (cnt a : Nat) (rs : List (Nat × Nat)), rangeReads part a cnt = some rs →
      rs.length = cnt ∧ ∀ jo, jo < cnt → rs.get? jo = readRange part (a + jo) := by
  intro cnt
  induction cnt with
  | zero =>
    intro a rs h
    cases h
    exact ⟨rfl, fun jo h => absurd h (by omega)⟩
  | succ n ih =>
    intro a rs h
    simp only [rangeReads] at h
    cases hr : readRange part a with
    | none => rw [hr] at h; exact absurd h (by simp)
    | some r =>
      rw [hr] at h
      cases hrs : rangeReads part (a + 1) n with
      | none => rw [hrs] at h; exact absurd h (by simp)
      | some rs' =>
        rw [hrs] at h
        cases h
        obtain ⟨hl, hg⟩ := ih (a + 1) rs' hrs
        refine ⟨by simp [hl], fun jo hjo => ?_⟩
        cases jo with
        | zero => simpa using hr.symm
        | succ j =>
          simp only [List.get?_cons_succ]
          rw [hg j (by omega), show a + 1 + j = a + (j + 1) from by omega]

theorem get_part_table_rows (part : List Nat) :
    ∀ (tbl : List (Nat × Nat × Nat)) (res : List (List (Nat × Nat))),
      get_part_table part tbl = some res →
      res.length = tbl.length ∧ ∀ k e, tbl.get? k = some e → res.get? k = part_row part e := by
  intro tbl
  induction tbl with
  | nil =>
    intro res h
    cases h
    exact ⟨rfl, fun k e h => absurd h (by simp)⟩
  | cons e rest ih =>
    intro res h
    simp only [get_part_table] at h
    cases hr : part_row part e with
    | none => rw [hr] at h; exact absurd h (by simp)
    | some row =>
      rw [hr] at h
      cases hrest : get_part_table part rest with
      | none => rw [hrest] at h; exact absurd h (by simp)
      | some rows =>
        rw [hrest] at h
        cases h
        obtain ⟨hl, hg⟩ := ih rows hrest
        refine ⟨by simp [hl], fun k e' hk => ?_⟩
        cases k with
        | zero =>
          simp only [List.get?_cons_zero] at hk
          cases hk
          simpa using hr.symm
        | succ k =>
          simp only [List.get?_cons_succ] at hk ⊢
          exact hg k e' hk

/-- C6: `get_pidx_table` drops the first 4-byte group as a `(0,0,0)`
sentinel and maps every subsequent group to
`(pointer = bytes 0-1 little-endian, byte 3 div 16, byte 3 mod 16)`;
`get_part_table` maps an all-zero entry to an empty range list and
otherwise reads, for `j` in `[ptr, ptr + main + sub)`, the 4 bytes at
offset `4 * j` as a little-endian `(low, high)` pair; in particular the
pidx bytes `00 00 00 00 02 00 00 10` decode to the single entry
`(2, 1, 0)` and the part bytes `0A 00 14 00` at group offset 2 decode to
the range `(10, 20)`. -/
theorem pidx_part_decode_spec :
    (∀ (pidx : List Nat) (t : List (Nat × Nat × Nat)),
        get_pidx_table pidx = some t → ∀ k, t.get? k = pidxEntry? pidx (k + 1)) ∧
      (∀ (part : List Nat) (tbl : List (Nat × Nat × Nat)) (res : List (List (Nat × Nat))),
        get_part_table part tbl = some res →
          res.length = tbl.length ∧
            (∀ k, tbl.get? k = some (0, 0, 0) → res.get? k = some []) ∧
            (∀ k a b c, tbl.get? k = some (a, b, c) → ¬(a = 0 ∧ b = 0 ∧ c = 0) →
              ∃ row, res.get? k = some row ∧ row.length = b + c ∧
                ∀ jo, jo < b + c → row.get? jo = readRange part (a + jo))) ∧
      get_pidx_table [0, 0, 0, 0, 2, 0, 0, 0x10] = some [(2, 1, 0)] ∧
      get_part_table [0, 0, 0, 0, 0, 0, 0, 0, 0x0A, 0, 0x14, 0] [(2, 1, 0)] =
        some [[(10, 20)]] := by
  refine ⟨get_pidx_table_get?, ?_, by decide, by decide⟩
  intro part tbl res h
  obtain ⟨hlen, hrows⟩ := get_part_table_rows part tbl res h
  refine ⟨hlen, fun k hk => ?_, fun k a b c hk hnz => ?_⟩
  · rw [hrows k _ hk]
    rfl
  · have hres := hrows k _ hk
    have hklt : k < res.length := by
      rw [hlen]
      obtain ⟨hb, -⟩ := List.get?_eq_some.mp hk
      exact hb
    obtain ⟨hb, -⟩ := List.get?_eq_some.mp (List.get?_eq_get hklt)
    have hrow : ∃ row, res.get? k = some row := ⟨res.get ⟨k, hklt⟩, List.get?_eq_get hklt⟩
    obtain ⟨row, hrowk⟩ := hrow
    refine ⟨row, hrowk, ?_⟩
    rw [hrowk] at hres
    have hres' : rangeReads part a (b + c) = some row := by
      simpa [part_row, hnz] using hres.symm
    obtain ⟨hl, hg⟩ := rangeReads_spec part (b + c) a row hres'
    exact ⟨hl, hg⟩

/-- Witness for C6 at the scenario input: the decoded pidx entry equals the
byte-level formula at group 1. -/
theorem pidx_part_decode_spec_witness :
    ([(2, 1, 0)] : List (Nat × Nat × Nat)).get? 0 = pidxEntry? [0, 0, 0, 0, 2, 0, 0, 0x10] 1 :=
  pidx_part_decode_spec.1 [0, 0, 0, 0, 2, 0, 0, 0x10] [(2, 1, 0)] (by decide) 0

/-- Witness for C10 at concrete buffers: the empty buffer fails and a
4-byte buffer decodes to zero entries. -/
theorem get_pidx_table_totality_witness :
    get_pidx_table [] = none ∧
      ∃ t, get_pidx_table [0, 0, 0, 0] = some t ∧ t.length = [0, 0, 0, 0].length / 4 - 1 :=
  ⟨get_pidx_table_totality.1,
    get_pidx_table_totality.2 [0, 0, 0, 0] (by decide) (by decide)⟩

/-! ## IndexedTextCodec: merge in src/core/encryptor.py (`Encryptor.build_mod`),
split in src/core/parser.py (`CardModule._progressive_processing`).
A record string is modelled by its UTF-8 byte sequence. -/

/-- `space_len = (4 - length % 4) % 4` from `build_mod`: NUL padding that
makes a record of counted length `length` end 4-byte aligned. -/
def space_len (length : Nat) : Nat := (4 - length % 4) % 4

/-- Counted length of record `i` in `build_mod`'s helper:
`if i == 0: length += 8`. -/
def counted_len (i : Nat) (s : List Nat) : Nat :=
  if i = 0 then s.length + 8 else s.length

/-- Blob part of the record loop of `build_mod` (one side):
`merge_str + sentence + "\x00" * space_len`. -/
def mergeBlobAux : Nat → List (List Nat) → List Nat
  | _, [] => []
  | i, s :: rest =>
    s ++ List.replicate (space_len (counted_len i s)) 0 ++ mergeBlobAux (i + 1) rest

/-- The blob `build_mod` produces for one side: the 8-NUL lead
(`"\x00" * 8`) then the records with alignment padding. -/
def merge_blob (ss : List (List Nat)) : List Nat :=
  List.replicate 8 0 ++ mergeBlobAux 0 ss

/-- Index part of the record loop of `build_mod`: starting from
`indx = [0]`, each record appends `indx[-1] + length + space_len`;
`acc` is `indx[-1]`. -/
def mergeIndxAux : Nat → Nat → List (List Nat) → List Nat
  | _, _, [] => []
  | i, acc, s :: rest =>
    (acc + counted_len i s + space_len (counted_len i s)) ::
      mergeIndxAux (i + 1) (acc + counted_len i s + space_len (counted_len i s)) rest

/-- The index list `build_mod` produces for one side:
`[4, 8] + indx[1:]`. -/
def merge_indx (ss : List (List Nat)) : List Nat :=
  4 :: 8 :: mergeIndxAux 0 0 ss

/-- `int_to_4bytes(n) = bytes([(n >> (8*i)) & 0xFF for i in range(4)])`
from `build_mod`. -/
def int_to_4bytes (n : Nat) : List Nat :=
  [n &&& 0xFF, (n >>> 8) &&& 0xFF, (n >>> 16) &&& 0xFF, (n >>> 24) &&& 0xFF]

/-- The interleaving loop of `build_mod`
(`card_indx.append(name_indx[i]); card_indx.append(desc_indx[i])` for
`i in range(len(name_indx))`, then serialised 4-byte little-endian).
Modelled on two equal-length lists — `build_mod` always interleaves
equally long name/desc index lists: one entry per record plus the two
header entries, one name per desc. -/
def card_indx_merge : List Nat → List Nat → List Nat
  | [], _ => []
  | _ :: _, [] => []
  | n :: ns, d :: ds => int_to_4bytes n ++ int_to_4bytes d ++ card_indx_merge ns ds

/-- The offset-extraction loop of `_progressive_processing`
(`for i in range(start, len(arr), 8)`) with an explicit iteration count:
read 4 bytes little-endian at `i`, stop early if fewer than 4 bytes
remain (`if len(chunk) < 4: break`).  A read past the end (`get?` =
`none`) is exactly the short-chunk break. -/
def readIdxsLoop (arr : List Nat) : Nat → Nat → List Nat
  | _, 0 => []
  | i, n + 1 =>
    match arr.get? i, arr.get? (i + 1), arr.get? (i + 2), arr.get? (i + 3) with
    | some c0, some c1, some c2, some c3 =>
      (c0 + c1 * 256 + c2 * 65536 + c3 * 16777216) :: readIdxsLoop arr (i + 8) n
    | _, _, _, _ => []

/-- Offsets decoded by `_progressive_processing` from the index buffer:
the loop `for i in range(start, len(arr), 8)` performs exactly
`ceil((len(arr) - start) / 8)` guarded iterations. -/
def read_idxs (arr : List Nat) (start : Nat) : List Nat :=
  readIdxsLoop arr start ((arr.length - start + 7) / 8)

/-- `txt.rstrip("\x00")` on the byte model. -/
def rstrip_nul (s : List Nat) : List Nat :=
  (s.reverse.dropWhile (· == 0)).reverse

/-- The record loop of `_progressive_processing`
(`for i in range(len(idxs) - 1)`), walking consecutive offset pairs
`(a, b)`.  A bounds violation — `a < 0 or b <= a or b > len(data)`, where
`a < 0` cannot occur for offsets decoded from unsigned bytes — appends
the empty string and continues; otherwise the slice `data[a:b]` is UTF-8
decoded (the identity on the byte model) and right-stripped of NULs. -/
def split_records : List Nat → List Nat → List (List Nat)
  | a :: b :: rest, data =>
    (if b ≤ a ∨ data.length < b then []
     else rstrip_nul ((data.drop a).take (b - a))) :: split_records (b :: rest) data
  | _, _ => []

/-- `CardModule._progressive_processing` (src/core/parser.py) on byte
content: extract 4-byte little-endian offsets every 8 bytes starting at
`start` (0 selects names, 4 descs), drop the header offset
(`idxs = idxs[1:]`, a no-op when empty), then slice the blob at
consecutive offset pairs. -/
def progressive_processing (arr data : List Nat) (start : Nat) : List (List Nat) :=
  split_records ((read_idxs arr start).drop 1) data

/-- C5: during split, every record whose offset pair violates bounds
(`end <= start`, or `end` beyond the blob length; a negative start cannot
occur for offsets decoded from unsigned bytes) is emitted as the empty
string and decoding continues: the output always keeps exactly one entry
per consecutive offset pair. -/
theorem split_records_guard (idxs data : List Nat) :
    (split_records idxs data).length = idxs.length - 1 ∧
      ∀ i a b, idxs.get? i = some a → idxs.get? (i + 1) = some b →
        (b ≤ a ∨ data.length < b) → (split_records idxs data).get? i = some [] := by
  induction idxs with
  | nil => exact ⟨rfl, fun i a b h _ _ => absurd h (by simp)⟩
  | cons a tail ih =>
    cases tail with
    | nil =>
      refine ⟨rfl, fun i a' b h h' _ => ?_⟩
      cases i <;> simp at h h'
    | cons b rest =>
      obtain ⟨ihlen, ihget⟩ := ih
      constructor
      · simp only [split_records, List.length_cons]
        rw [ihlen]
        simp
      · intro i a' b' ha hb hviol
        cases i with
        | zero =>
          simp only [List.get?_cons_zero] at ha
          simp only [List.get?_cons_succ, List.get?_cons_zero] at hb
          cases ha; cases hb
          simp only [split_records, List.get?_cons_zero]
          rw [if_pos hviol]
        | succ i =>
          simp only [List.get?_cons_succ] at ha hb
          simp only [split_records, List.get?_cons_succ]
          exact ihget i a' b' ha hb hviol

/-- Witness for C5: offsets `[5, 3]` (end before start) over a 2-byte blob
produce the single record `""`. -/
theorem split_records_guard_witness :
    (split_records [5, 3] [1, 2]).get? 0 = some [] :=
  (split_records_guard [5, 3] [1, 2]).2 0 5 3 rfl rfl (by omega)

/-- Uniform (non-first-record) form of the blob loop: only record 0 gets
the `+ 8` length correction, and that correction is a multiple of 4, so
record 0's padding is unchanged anyway. -/
def blobTail : List (List Nat) → List Nat
  | [] => []
  | s :: rest => s ++ List.replicate (space_len s.length) 0 ++ blobTail rest

/-- Uniform form of the index loop. -/
def indxTail : Nat → List (List Nat) → List Nat
  | _, [] => []
  | acc, s :: rest =>
    (acc + s.length + space_len s.length) ::
      indxTail (acc + s.length + space_len s.length) rest

theorem space_len_add8 (l : Nat) : space_len (l + 8) = space_len l := by
  unfold space_len
  omega

theorem mergeBlobAux_succ : ∀ (ss : List (List Nat)) (i : Nat),
    mergeBlobAux (i + 1) ss = blobTail ss := by
  intro ss
  induction ss with
  | nil => intro i; rfl
  | cons s rest ih =>
    intro i
    simp only [mergeBlobAux, blobTail, counted_len, Nat.add_one_ne_zero, if_false, ih]

theorem merge_blob_eq (ss : List (List Nat)) :
    merge_blob ss = List.replicate 8 0 ++ blobTail ss := by
  cases ss with
  | nil => rfl
  | cons s rest =>
    unfold merge_blob
    simp [mergeBlobAux, blobTail, counted_len, mergeBlobAux_succ, space_len_add8]

theorem mergeIndxAux_succ : ∀ (ss : List (List Nat)) (i acc : Nat),
    mergeIndxAux (i + 1) acc ss = indxTail acc ss := by
  intro ss
  induction ss with
  | nil => intro i acc; rfl
  | cons s rest ih =>
    intro i acc
    simp only [mergeIndxAux, indxTail, counted_len, Nat.add_one_ne_zero, if_false, ih]

theorem merge_indx_eq (ss : List (List Nat)) :
    merge_indx ss = 4 :: 8 :: indxTail 8 ss := by
  cases ss with
  | nil => rfl
  | cons s rest =>
    unfold merge_indx
    simp only [mergeIndxAux, mergeIndxAux_succ, indxTail]
    have h : 0 + counted_len 0 s + space_len (counted_len 0 s) =
        8 + s.length + space_len s.length := by
      simp [counted_len, space_len_add8]
      omega
    rw [h]

theorem indxTail_length : ∀ (ss : List (List Nat)) (acc : Nat),
    (indxTail acc ss).length = ss.length := by
  intro ss
  induction ss with
  | nil => intro acc; rfl
  | cons s rest ih =>
    intro acc
    simp only [indxTail, List.length_cons, ih]

theorem indxTail_le : ∀ (ss : List (List Nat)) (acc v : Nat),
    v ∈ indxTail acc ss → v ≤ acc + (blobTail ss).length := by
  intro ss
  induction ss with
  | nil =>
    intro acc v h
    simp [indxTail] at h
  | cons s rest ih =>
    intro acc v h
    simp only [indxTail, List.mem_cons] at h
    simp only [blobTail, List.length_append, List.length_replicate]
    rcases h with rfl | h
    · omega
    · have := ih (acc + s.length + space_len s.length) v h
      omega

theorem le_bytes4_roundtrip (n : Nat) (h : n < 2 ^ 32) :
    (n &&& 0xFF) + ((n >>> 8) &&& 0xFF) * 256 + ((n >>> 16) &&& 0xFF) * 65536 +
      ((n >>> 24) &&& 0xFF) * 16777216 = n := by
  have h0 : n &&& 255 = n % 256 := by simpa using Nat.and_pow_two_sub_one_eq_mod n 8
  have h8 : (n >>> 8) &&& 255 = n / 2 ^ 8 % 256 := by
    rw [Nat.shiftRight_eq_div_pow]
    simpa using Nat.and_pow_two_sub_one_eq_mod (n / 2 ^ 8) 8
  have h16 : (n >>> 16) &&& 255 = n / 2 ^ 16 % 256 := by
    rw [Nat.shiftRight_eq_div_pow]
    simpa using Nat.and_pow_two_sub_one_eq_mod (n / 2 ^ 16) 8
  have h24 : (n >>> 24) &&& 255 = n / 2 ^ 24 % 256 := by
    rw [Nat.shiftRight_eq_div_pow]
    simpa using Nat.and_pow_two_sub_one_eq_mod (n / 2 ^ 24) 8
  simp only [show (0xFF : Nat) = 255 from rfl] at *
  rw [h0, h8, h16, h24]
  norm_num
  omega

theorem card_indx_merge_length : ∀ (ns ds : List Nat), ns.length = ds.length →
    (card_indx_merge ns ds).length = 8 * ns.length := by
  intro ns
  induction ns with
  | nil => intro ds _; rfl
  | cons n ns ih =>
    intro ds h
    cases ds with
    | nil => simp at h
    | cons d ds =>
      simp only [card_indx_merge, List.length_append, List.length_cons]
      rw [ih ds (by simpa using h)]
      simp only [int_to_4bytes, List.length_cons, List.length_nil]
      omega

theorem readIdxsLoop_shift (pre arr : List Nat) (hpre : pre.length = 8) :
    ∀ (n i : Nat), readIdxsLoop (pre ++ arr) (i + 8) n = readIdxsLoop arr i n := by
  intro n
  induction n with
  | zero => intro i; rfl
  | succ n ih =>
    intro i
    have g : ∀ k, (pre ++ arr).get? (i + 8 + k) = arr.get? (i + k) := by
      intro k
      rw [List.get?_append_right (by omega)]
      congr 1
      omega
    have g0 := g 0
    have g1 := g 1
    have g2 := g 2
    have g3 := g 3
    simp only [Nat.add_zero] at g0
    simp only [readIdxsLoop, g0, g1, g2, g3, ih (i + 8)]

/-- Little-endian 32-bit decode of the serialised offset `n`, as performed
by the split loop on the bytes the merge loop wrote. -/
def le32dec (n : Nat) : Nat :=
  (n &&& 0xFF) + ((n >>> 8) &&& 0xFF) * 256 + ((n >>> 16) &&& 0xFF) * 65536 +
    ((n >>> 24) &&& 0xFF) * 16777216

theorem readIdxsLoop_phase0 : ∀ (ns ds : List Nat), ns.length = ds.length →
    readIdxsLoop (card_indx_merge ns ds) 0 ns.length = ns.map le32dec := by
  intro ns
  induction ns with
  | nil => intro ds _; rfl
  | cons n ns ih =>
    intro ds h
    cases ds with
    | nil => simp at h
    | cons d ds =>
      have h8 : (int_to_4bytes n ++ int_to_4bytes d).length = 8 := rfl
      have e : ∀ k, k < 4 → (card_indx_merge (n :: ns) (d :: ds)).get? k =
          (int_to_4bytes n).get? k := by
        intro k hk
        show (int_to_4bytes n ++ (int_to_4bytes d ++ card_indx_merge ns ds)).get? k = _
        rw [List.get?_append (by simp [int_to_4bytes]; omega)]
      simp only [List.length_cons, readIdxsLoop]
      rw [e 0 (by omega), e 1 (by omega), e 2 (by omega), e 3 (by omega)]
      have hshift : readIdxsLoop (card_indx_merge (n :: ns) (d :: ds)) (0 + 8) ns.length =
          readIdxsLoop (card_indx_merge ns ds) 0 ns.length := by
        show readIdxsLoop (int_to_4bytes n ++ (int_to_4bytes d ++ card_indx_merge ns ds))
            (0 + 8) ns.length = _
        rw [← List.append_assoc]
        exact readIdxsLoop_shift _ _ h8 ns.length 0
      simp only [int_to_4bytes, List.get?_cons_zero, List.get?_cons_succ]
      rw [hshift, ih ds (by simpa using h)]
      rfl

theorem readIdxsLoop_phase4 : ∀ (ns ds : List Nat), ns.length = ds.length →
    readIdxsLoop (card_indx_merge ns ds) 4 ds.length = ds.map le32dec := by
  intro ns
  induction ns with
  | nil =>
    intro ds h
    have : ds = [] := List.length_eq_zero.mp h.symm
    subst this
    rfl
  | cons n ns ih =>
    intro ds h
    cases ds with
    | nil => simp at h
    | cons d ds =>
      have h8 : (int_to_4bytes n ++ int_to_4bytes d).length = 8 := rfl
      have e : ∀ k, k < 4 → (card_indx_merge (n :: ns) (d :: ds)).get? (4 + k) =
          (int_to_4bytes d).get? k := by
        intro k hk
        show (int_to_4bytes n ++ (int_to_4bytes d ++ card_indx_merge ns ds)).get? (4 + k) = _
        rw [List.get?_append_right (by simp [int_to_4bytes])]
        rw [List.get?_append (by simp [int_to_4bytes]; omega)]
        congr 1
        simp [int_to_4bytes]
      have e0 := e 0 (by omega)
      have e1 := e 1 (by omega)
      have e2 := e 2 (by omega)
      have e3 := e 3 (by omega)
      simp only [Nat.add_zero] at e0
      simp only [List.length_cons, readIdxsLoop]
      rw [e0, e1, e2, e3]
      have hshift : readIdxsLoop (card_indx_merge (n :: ns) (d :: ds)) (4 + 8) ds.length =
          readIdxsLoop (card_indx_merge ns ds) 4 ds.length := by
        show readIdxsLoop (int_to_4bytes n ++ (int_to_4bytes d ++ card_indx_merge ns ds))
            (4 + 8) ds.length = _
        rw [← List.append_assoc]
        exact readIdxsLoop_shift _ _ h8 ds.length 4
      simp only [int_to_4bytes, List.get?_cons_zero, List.get?_cons_succ]
      rw [hshift, ih ds (by simpa using h)]
      rfl

theorem dropWhile_replicate_zero (k : Nat) (t : List Nat) :
    List.dropWhile (· == 0) (List.replicate k 0 ++ t) = List.dropWhile (· == 0) t := by
  induction k with
  | zero => rfl
  | succ k ih => simp [List.replicate_succ, List.dropWhile_cons, ih]

theorem rstrip_nul_append_replicate (s : List Nat) (k : Nat)
    (hs : ∀ b ∈ s, b ≠ 0) : rstrip_nul (s ++ List.replicate k 0) = s := by
  unfold rstrip_nul
  rw [List.reverse_append, List.reverse_replicate, dropWhile_replicate_zero]
  cases hrev : s.reverse with
  | nil =>
    have : s = [] := by simpa using congrArg List.reverse hrev
    simp [this]
  | cons a t =>
    have ha : a ∈ s := by
      rw [← List.mem_reverse, hrev]
      simp
    have hfalse : (a == 0) = false := by simpa using hs a ha
    rw [List.dropWhile_cons, hfalse]
    simp only [Bool.false_eq_true, if_false]
    rw [← hrev, List.reverse_reverse]

theorem split_records_blob : ∀ (ss : List (List Nat)) (data : List Nat) (acc : Nat),
    (∀ s ∈ ss, ∀ b ∈ s, b ≠ 0) → acc ≤ data.length → data.drop acc = blobTail ss →
    split_records (acc :: indxTail acc ss) data = ss := by
  intro ss
  induction ss with
  | nil => intro data acc _ _ _; rfl
  | cons s rest ih =>
    intro data acc hnz hacc hdrop
    have hlen : data.length - acc = (blobTail (s :: rest)).length := by
      rw [← hdrop, List.length_drop]
    simp only [blobTail, List.length_append, List.length_replicate] at hlen
    have hshape : blobTail (s :: rest) =
        (s ++ List.replicate (space_len s.length) 0) ++ blobTail rest := by
      simp [blobTail, List.append_assoc]
    by_cases hs : s = []
    · subst hs
      have hsp : space_len 0 = 0 := rfl
      simp only [indxTail, split_records, List.length_nil, hsp, Nat.add_zero]
      rw [if_pos (Or.inl (le_refl acc))]
      congr 1
      refine ih data acc (fun t ht => hnz t (by simp [ht])) hacc ?_
      rw [hdrop]
      simp [blobTail, hsp]
    · have hpos : 0 < s.length := List.length_pos.mpr hs
      have hbound : acc + s.length + space_len s.length ≤ data.length := by omega
      simp only [indxTail, split_records]
      rw [if_neg (by omega)]
      have hsub : acc + s.length + space_len s.length - acc =
          s.length + space_len s.length := by omega
      have htake : (data.drop acc).take (acc + s.length + space_len s.length - acc) =
          s ++ List.replicate (space_len s.length) 0 := by
        rw [hsub, hdrop, hshape]
        exact List.take_left' (by simp)
      have hdropnext : data.drop (acc + s.length + space_len s.length) = blobTail rest := by
        rw [show acc + s.length + space_len s.length =
            acc + (s.length + space_len s.length) from by omega, ← List.drop_drop]
        rw [hdrop, hshape]
        exact List.drop_left' (by simp)
      congr 1
      · rw [htake]
        exact rstrip_nul_append_replicate s _ (hnz s (by simp))
      · exact ih data _ (fun t ht => hnz t (by simp [ht])) (by omega) hdropnext

/-- C2: for every pair of equal-length NUL-free record lists, merging
(8-NUL lead, records padded with 0-3 trailing NULs to 4-byte alignment,
first counted length increased by 8, index prefixed with `[4, 8]`,
both index lists interleaved 4-byte little-endian) and then splitting
the blobs via the interleaved index reproduces both lists exactly.
The merged blobs must fit the 4-byte offset fields (below `2^32`, the
`u32` offset domain of the on-disk format); beyond that the serialised
offsets would wrap. -/
theorem merge_split_roundtrip (names descs : List (List Nat))
    (hlen : names.length = descs.length)
    (hn : ∀ s ∈ names, ∀ b ∈ s, b ≠ 0)
    (hd : ∀ s ∈ descs, ∀ b ∈ s, b ≠ 0)
    (hn32 : (merge_blob names).length < 2 ^ 32)
    (hd32 : (merge_blob descs).length < 2 ^ 32) :
    progressive_processing (card_indx_merge (merge_indx names) (merge_indx descs))
        (merge_blob names) 0 = names ∧
      progressive_processing (card_indx_merge (merge_indx names) (merge_indx descs))
        (merge_blob descs) 4 = descs := by
  have hni : (merge_indx names).length = names.length + 2 := by
    rw [merge_indx_eq]
    simp [indxTail_length]
  have hdi : (merge_indx descs).length = descs.length + 2 := by
    rw [merge_indx_eq]
    simp [indxTail_length]
  have hlens : (merge_indx names).length = (merge_indx descs).length := by
    rw [hni, hdi, hlen]
  have harr : (card_indx_merge (merge_indx names) (merge_indx descs)).length =
      8 * (names.length + 2) := by
    rw [card_indx_merge_length _ _ hlens, hni]
  have hmapmem : ∀ (ss : List (List Nat)), (merge_blob ss).length < 2 ^ 32 →
      (merge_indx ss).map le32dec = merge_indx ss := by
    intro ss h32
    have hblob : (merge_blob ss).length = 8 + (blobTail ss).length := by
      rw [merge_blob_eq]
      simp only [List.length_append, List.length_replicate]
    have : ∀ v ∈ merge_indx ss, le32dec v = v := by
      intro v hv
      rw [merge_indx_eq] at hv
      simp only [List.mem_cons] at hv
      have hv32 : v < 2 ^ 32 := by
        rcases hv with rfl | rfl | hv
        · omega
        · omega
        · have := indxTail_le ss 8 v hv
          omega
      exact le_bytes4_roundtrip v hv32
    calc (merge_indx ss).map le32dec = (merge_indx ss).map id := List.map_congr_left this
      _ = merge_indx ss := List.map_id _
  have hread0 : read_idxs (card_indx_merge (merge_indx names) (merge_indx descs)) 0 =
      merge_indx names := by
    unfold read_idxs
    have hcnt : (card_indx_merge (merge_indx names) (merge_indx descs)).length - 0 + 7 =
        8 * (names.length + 2) + 7 := by omega
    rw [hcnt, show (8 * (names.length + 2) + 7) / 8 = (merge_indx names).length from
      by rw [hni]; omega]
    rw [readIdxsLoop_phase0 _ _ hlens, hmapmem names hn32]
  have hread4 : read_idxs (card_indx_merge (merge_indx names) (merge_indx descs)) 4 =
      merge_indx descs := by
    unfold read_idxs
    have hcnt : (card_indx_merge (merge_indx names) (merge_indx descs)).length - 4 + 7 =
        8 * (names.length + 2) + 3 := by omega
    rw [hcnt, show (8 * (names.length + 2) + 3) / 8 = (merge_indx descs).length from
      by rw [hdi, ← hlen]; omega]
    rw [readIdxsLoop_phase4 _ _ hlens, hmapmem descs hd32]
  have hside : ∀ (ss : List (List Nat)), (∀ s ∈ ss, ∀ b ∈ s, b ≠ 0) →
      split_records ((merge_indx ss).drop 1) (merge_blob ss) = ss := by
    intro ss hnz
    rw [merge_indx_eq]
    show split_records (8 :: indxTail 8 ss) (merge_blob ss) = ss
    refine split_records_blob ss (merge_blob ss) 8 hnz ?_ ?_
    · rw [merge_blob_eq]
      simp
    · rw [merge_blob_eq]
      exact List.drop_left' (by simp)
  constructor
  · unfold progressive_processing
    rw [hread0]
    exact hside names hn
  · unfold progressive_processing
    rw [hread4]
    exact hside descs hd

/-- Witness for C2 at a concrete one-record pair (`"Hi"` / `"B"`). -/
theorem merge_split_roundtrip_witness :
    progressive_processing (card_indx_merge (merge_indx [[72, 105]]) (merge_indx [[66]]))
        (merge_blob [[72, 105]]) 0 = [[72, 105]] ∧
      progressive_processing (card_indx_merge (merge_indx [[72, 105]]) (merge_indx [[66]]))
        (merge_blob [[66]]) 4 = [[66]] :=
  merge_split_roundtrip [[72, 105]] [[66]] (by decide) (by decide) (by decide)
    (by decide) (by decide)

/-! ## BraceAnnotator: src/core/brace_utils.py, plus
`MainWindow._extract_top_level_segments` from src/gui/main_window.py.
Annotated text is handled as its UTF-8 byte sequence (`{` = byte 123,
`}` = byte 125). -/

/-- `string_insert(orig, ins, index)` from src/core/brace_utils.py. -/
def string_insert (orig ins : List Nat) (index : Nat) : List Nat :=
  orig.take index ++ ins ++ orig.drop index

/-- Braces inserted at point `p` by `insert_braces`'s dictionary:
`'}' * insertion_dict[p]['R'] + '{' * insertion_dict[p]['L']`, where `R`
counts (already non-degenerate) ranges with `b + 1 = p` and `L` those
with `a = p`.  At a point no range touches this is the empty insertion. -/
def brace_ins (parts : List (Nat × Nat)) (p : Nat) : List Nat :=
  List.replicate (parts.countP (fun r => r.2 + 1 == p)) 125 ++
    List.replicate (parts.countP (fun r => r.1 == p)) 123

/-- The descending application loop of `insert_braces`
(`for index in sorted(insertion_dict.keys(), reverse=True)`), expressed
as one insertion at every point `P, P-1, ..., 0`: inserting the empty
byte string at a point that is not a dictionary key leaves the buffer
unchanged (`string_insert_nil`), so when every key is `≤ P` this is the
dictionary loop. -/
def insertFromTop (ins : Nat → List Nat) (t : List Nat) : Nat → List Nat
  | 0 => string_insert t (ins 0) 0
  | p + 1 => insertFromTop ins (string_insert t (ins (p + 1)) (p + 1)) p

/-- The largest insertion point of the filtered ranges (the first key the
descending dictionary loop visits). -/
def maxPoint (parts : List (Nat × Nat)) : Nat :=
  parts.foldr (fun r m => max (max r.1 (r.2 + 1)) m) 0

/-- `insert_braces(effect_text, parts_arr)` from src/core/brace_utils.py:
ranges failing `a < b` are filtered out (the `isinstance` checks always
hold on our typed ranges); if none remain the text is returned unchanged;
otherwise each insertion point receives its `}` run then its `{` run,
points processed from highest to lowest. -/
def insert_braces (effect_text : List Nat) (parts_arr : List (Nat × Nat)) : List Nat :=
  if (parts_arr.filter (fun r => r.1 < r.2)).isEmpty then effect_text
  else insertFromTop (brace_ins (parts_arr.filter (fun r => r.1 < r.2))) effect_text
    (maxPoint (parts_arr.filter (fun r => r.1 < r.2)))

/-- The pointwise reading of annotation: before byte `i` of the original
text come all bytes inserted at point `i` (closers before openers, as
`brace_ins` orders them), and the insertion at point `length` ends the
buffer. -/
def pointwiseAnnot (ins : Nat → List Nat) (t : List Nat) (n : Nat) : List Nat :=
  (List.range n).flatMap (fun i => ins i ++ (t.drop i).take 1) ++ ins n ++ t.drop n

theorem string_insert_nil (t : List Nat) (p : Nat) : string_insert t [] p = t := by
  unfold string_insert
  simp

theorem take_one_drop_append (t : List Nat) (p : Nat) :
    (t.drop p).take 1 ++ t.drop (p + 1) = t.drop p := by
  have h1 : t.drop (p + 1) = (t.drop p).drop 1 := by rw [List.drop_drop]
  rw [h1, List.take_append_drop]

theorem flatMap_congr_mem (f g : Nat → List Nat) :
    ∀ l : List Nat, (∀ a ∈ l, f a = g a) → l.flatMap f = l.flatMap g := by
  intro l
  induction l with
  | nil => intro _; rfl
  | cons a l ih =>
    intro h
    simp only [List.flatMap_cons]
    rw [h a (by simp), ih (fun b hb => h b (by simp [hb]))]

theorem insertFromTop_pointwise (ins : Nat → List Nat) :
    ∀ (n : Nat) (t : List Nat), n ≤ t.length →
      insertFromTop ins t n = pointwiseAnnot ins t n := by
  intro n
  induction n with
  | zero =>
    intro t _
    simp [insertFromTop, pointwiseAnnot, string_insert]
  | succ n ih =>
    intro t hn
    simp only [insertFromTop]
    rw [ih (string_insert t (ins (n + 1)) (n + 1)) (by simp [string_insert]; omega)]
    have hdropi : ∀ i, i ≤ n →
        ((string_insert t (ins (n + 1)) (n + 1)).drop i).take 1 = (t.drop i).take 1 := by
      intro i hi
      unfold string_insert
      rw [List.drop_append_of_le_length
            (by rw [List.length_append, List.length_take_of_le (by omega)]; omega),
        List.drop_append_of_le_length (by rw [List.length_take_of_le (by omega)]; omega),
        List.take_append_of_le_length
          (by rw [List.length_append, List.length_drop,
                List.length_take_of_le (by omega)]; omega),
        List.take_append_of_le_length
          (by rw [List.length_drop, List.length_take_of_le (by omega)]; omega),
        List.drop_take, List.take_take]
      congr 1
      omega
    have hdropn : (string_insert t (ins (n + 1)) (n + 1)).drop n =
        (t.drop n).take 1 ++ ins (n + 1) ++ t.drop (n + 1) := by
      unfold string_insert
      rw [List.drop_append_of_le_length
            (by rw [List.length_append, List.length_take_of_le (by omega)]; omega),
        List.drop_append_of_le_length (by rw [List.length_take_of_le (by omega)]; omega),
        List.drop_take]
      congr 3
      omega
    unfold pointwiseAnnot
    rw [flatMap_congr_mem
      (fun i => ins i ++ ((string_insert t (ins (n + 1)) (n + 1)).drop i).take 1)
      (fun i => ins i ++ (t.drop i).take 1) (List.range n)
      (fun i hi => by
        have hin : i ≤ n := by
          have := List.mem_range.mp hi
          omega
        show ins i ++ ((string_insert t (ins (n + 1)) (n + 1)).drop i).take 1 =
            ins i ++ (t.drop i).take 1
        rw [hdropi i hin])]
    rw [hdropn, List.range_succ, List.flatMap_append]
    simp [List.append_assoc]

theorem pointwiseAnnot_extend (ins : Nat → List Nat) (m : Nat) :
    ∀ (n : Nat) (t : List Nat), m ≤ n → n ≤ t.length → (∀ p, m < p → ins p = []) →
      pointwiseAnnot ins t n = pointwiseAnnot ins t m := by
  intro n
  induction n with
  | zero =>
    intro t hm _ _
    have : m = 0 := by omega
    rw [this]
  | succ n ih =>
    intro t hm hn hv
    by_cases hcase : m = n + 1
    · rw [hcase]
    · have hmn : m ≤ n := by omega
      rw [← ih t hmn (by omega) hv]
      unfold pointwiseAnnot
      rw [List.range_succ, List.flatMap_append, hv (n + 1) (by omega)]
      simp only [List.flatMap_cons, List.flatMap_nil, List.append_nil, List.nil_append,
        List.append_assoc]
      rw [take_one_drop_append]

theorem flatMap_take_one_range' (t : List Nat) :
    ∀ (k pos : Nat),
      (List.range' pos k).flatMap (fun i => (t.drop i).take 1) = (t.drop pos).take k := by
  intro k
  induction k with
  | zero => simp
  | succ k ih =>
    intro pos
    rw [List.range'_succ pos k 1, List.flatMap_cons, ih (pos + 1),
      show k + 1 = 1 + k from by omega, List.take_add, List.drop_drop]

theorem flatMap_take_one_range (t : List Nat) :
    (List.range t.length).flatMap (fun i => (t.drop i).take 1) = t := by
  rw [List.range_eq_range' t.length, flatMap_take_one_range' t t.length 0]
  simp

theorem maxPoint_ge : ∀ (parts : List (Nat × Nat)) (r : Nat × Nat), r ∈ parts →
    r.1 ≤ maxPoint parts ∧ r.2 + 1 ≤ maxPoint parts := by
  intro parts
  induction parts with
  | nil => intro r h; simp at h
  | cons x l ih =>
    intro r h
    simp only [List.mem_cons] at h
    simp only [maxPoint, List.foldr_cons]
    rcases h with rfl | h
    · omega
    · have := ih r h
      simp only [maxPoint] at this
      omega

theorem maxPoint_le_of (parts : List (Nat × Nat)) (L : Nat)
    (h : ∀ r ∈ parts, r.1 ≤ L ∧ r.2 + 1 ≤ L) : maxPoint parts ≤ L := by
  induction parts with
  | nil => simp [maxPoint]
  | cons x l ih =>
    simp only [maxPoint, List.foldr_cons]
    have hx := h x (by simp)
    have hl : maxPoint l ≤ L := ih (fun r hr => h r (by simp [hr]))
    simp only [maxPoint] at hl
    omega

theorem brace_ins_gt_max (parts : List (Nat × Nat)) (p : Nat)
    (h : maxPoint parts < p) : brace_ins parts p = [] := by
  unfold brace_ins
  have h1 : parts.countP (fun r => r.2 + 1 == p) = 0 := by
    rw [List.countP_eq_zero]
    intro r hr
    have := (maxPoint_ge parts r hr).2
    simp only [beq_iff_eq]
    omega
  have h2 : parts.countP (fun r => r.1 == p) = 0 := by
    rw [List.countP_eq_zero]
    intro r hr
    have := (maxPoint_ge parts r hr).1
    simp only [beq_iff_eq]
    omega
  rw [h1, h2]
  rfl

/-- Shared pointwise characterisation of `insert_braces` for in-bounds
range lists: the descending application of the insertion dictionary
equals the interleaving that puts, before each original byte `i`, first
the closing then the opening braces of point `i`. -/
theorem insert_braces_pointwise (t : List Nat) (ranges : List (Nat × Nat))
    (hb : ∀ r ∈ ranges, r.1 < r.2 → r.2 + 1 ≤ t.length) :
    insert_braces t ranges =
      (List.range t.length).flatMap
          (fun i => brace_ins (ranges.filter (fun r => r.1 < r.2)) i ++
            (t.drop i).take 1) ++
        brace_ins (ranges.filter (fun r => r.1 < r.2)) t.length := by
  unfold insert_braces
  by_cases hemp : (ranges.filter (fun r => r.1 < r.2)).isEmpty
  · rw [if_pos hemp]
    have hnil : ranges.filter (fun r => r.1 < r.2) = [] := by
      simpa [List.isEmpty_iff] using hemp
    rw [hnil]
    have hins : ∀ p, brace_ins ([] : List (Nat × Nat)) p = [] := fun _ => rfl
    simp only [hins, List.nil_append, List.append_nil]
    exact (flatMap_take_one_range t).symm
  · rw [if_neg hemp]
    have hmem : ∀ r ∈ ranges.filter (fun r => r.1 < r.2),
        r.1 < r.2 ∧ r.2 + 1 ≤ t.length := by
      intro r hr
      have h1 : r.1 < r.2 := by simpa using List.of_mem_filter hr
      exact ⟨h1, hb r (List.mem_of_mem_filter hr) h1⟩
    have hmax : maxPoint (ranges.filter (fun r => r.1 < r.2)) ≤ t.length :=
      maxPoint_le_of _ _ (fun r hr => by have := hmem r hr; omega)
    rw [insertFromTop_pointwise _ _ _ hmax,
      ← pointwiseAnnot_extend _ (maxPoint (ranges.filter (fun r => r.1 < r.2)))
        t.length t hmax (le_refl _) (fun p hp => brace_ins_gt_max _ p hp)]
    simp [pointwiseAnnot, List.drop_length]

/-- C7: `insert_braces` discards every range with `low >= high`, inserts
for each surviving range an opening brace at byte offset `low` and a
closing brace at byte offset `high + 1`, applies the insertion points
from the highest offset down, and at a shared point writes all closing
braces before all opening braces: for in-bounds ranges the result is
exactly the pointwise interleaving that puts, before each original byte
`i`, first the closing then the opening braces of point `i` (the
highest-to-lowest application never invalidates lower offsets).  In
particular annotating "Deal 10 damage." with the range `(5, 6)` yields
"Deal {10} damage.". -/
theorem insert_braces_spec :
    insert_braces [68, 101, 97, 108, 32, 49, 48, 32, 100, 97, 109, 97, 103, 101, 46]
        [(5, 6)] =
      [68, 101, 97, 108, 32, 123, 49, 48, 125, 32, 100, 97, 109, 97, 103, 101, 46] ∧
      (∀ (t : List Nat) (ranges : List (Nat × Nat)) (a b : Nat), ¬a < b →
        insert_braces t ((a, b) :: ranges) = insert_braces t ranges) ∧
      (∀ (t : List Nat) (ranges : List (Nat × Nat)),
        (∀ r ∈ ranges, r.1 < r.2 → r.2 + 1 ≤ t.length) →
        insert_braces t ranges =
          (List.range t.length).flatMap
              (fun i => brace_ins (ranges.filter (fun r => r.1 < r.2)) i ++
                (t.drop i).take 1) ++
            brace_ins (ranges.filter (fun r => r.1 < r.2)) t.length) := by
  refine ⟨by decide, fun t ranges a b hab => ?_, insert_braces_pointwise⟩
  have hc : ¬decide ((a, b).1 < (a, b).2) = true := by simpa using hab
  unfold insert_braces
  simp only [List.filter_cons, if_neg hc]

/-- Witness for C7's quantified parts at concrete inputs: a degenerate
range is discarded, and a 2-byte text with range `(0, 1)` matches the
pointwise interleaving. -/
theorem insert_braces_spec_witness :
    insert_braces [97] [(5, 3)] = insert_braces [97] [] ∧
      insert_braces [97, 98] [(0, 1)] =
        (List.range ([97, 98] : List Nat).length).flatMap
            (fun i => brace_ins ([(0, 1)].filter (fun r => r.1 < r.2)) i ++
              (([97, 98] : List Nat).drop i).take 1) ++
          brace_ins ([(0, 1)].filter (fun r => r.1 < r.2)) ([97, 98] : List Nat).length :=
  ⟨insert_braces_spec.2.1 [97] [] 5 3 (by omega),
    insert_braces_spec.2.2 [97, 98] [(0, 1)] (by decide)⟩

/-- Byte-level whitespace test matching Python `str.isspace()` on the
ASCII range (`\t \n \v \f \r`, the file/group/record/unit separators
`\x1c`-`\x1f`, and space); the only whitespace the development relies on
is ASCII. -/
def isSpaceByte (b : Nat) : Bool :=
  (9 ≤ b && b ≤ 13) || (28 ≤ b && b ≤ 31) || b == 32

/-- Python `str.strip()` on the byte model: drop leading and trailing
whitespace. -/
def stripBytes (s : List Nat) : List Nat :=
  ((s.dropWhile isSpaceByte).reverse.dropWhile isSpaceByte).reverse

/-- One character step of the segment scan of
`MainWindow._extract_top_level_segments` (src/gui/main_window.py):
state is `(depth, cur, res)`.  A `{` at depth 0 starts a fresh segment
buffer, nested braces are kept verbatim inside `cur`, a `}` closing
depth 1 emits `cur.strip()`, and an unmatched `}` at depth 0 is
ignored. -/
def segStep : Nat × List Nat × List (List Nat) → Nat → Nat × List Nat × List (List Nat)
  | (depth, cur, res), c =>
    if c == 123 then
      (depth + 1, if depth == 0 then [] else cur ++ [c], res)
    else if c == 125 then
      if depth == 0 then (depth, cur, res)
      else if depth == 1 then (0, cur, res ++ [stripBytes cur])
      else (depth - 1, cur ++ [c], res)
    else
      (depth, if depth == 0 then cur else cur ++ [c], res)

/-- The material-detection loop of `_extract_top_level_segments`: the
index of the first `{` seen at depth 0.  The loop's own bookkeeping can
never raise `depth` above 0 (it breaks at a `{` whenever `depth` is 0 and
only increments `depth` at a `{` seen at positive depth), so this is the
first `{` overall; the quirk is modelled faithfully. -/
def findFirstTop : List Nat → Nat → Nat → Option Nat
  | [], _, _ => none
  | c :: rest, i, depth =>
    if c == 123 then
      if depth == 0 then some i else findFirstTop rest (i + 1) (depth + 1)
    else if c == 125 then
      findFirstTop rest (i + 1) (if 0 < depth then depth - 1 else depth)
    else findFirstTop rest (i + 1) depth

/-- `MainWindow._extract_top_level_segments` on the byte model:
`(material, segments)`; material is the stripped text before the first
top-level `{` when nonempty. -/
def extract_top_level_segments (s : List Nat) : Option (List Nat) × List (List Nat) :=
  (match findFirstTop s 0 0 with
    | some ft =>
      if 0 < ft then
        if (stripBytes (s.take ft)).isEmpty then none else some (stripBytes (s.take ft))
      else none
    | none => none,
   (s.foldl segStep (0, [], [])).2.2)

/-- C8 counterexample: both parts of the claim fail on concrete
non-degenerate in-bounds inputs.  With text "ab" and ranges
`[(0,1), (0,1)]` (each `low < high`, in bounds) the annotated text is
"{{ab}}" and the segment count is 1, not 2.  With text "a b" and range
`(0,1)`, whose covered substring is "a " (trailing space), the annotated
text is "{a }b" and the extracted segment is the stripped "a", not the
verbatim substring "a ". -/
theorem extract_annotate_counterexample :
    ((extract_top_level_segments (insert_braces [97, 98] [(0, 1), (0, 1)])).2.length = 1 ∧
      ¬(extract_top_level_segments (insert_braces [97, 98] [(0, 1), (0, 1)])).2.length = 2) ∧
      (extract_top_level_segments (insert_braces [97, 32, 98] [(0, 1)])).2 = [[97]] ∧
      ¬(extract_top_level_segments (insert_braces [97, 32, 98] [(0, 1)])).2 = [[97, 32]] := by
  decide

/-- The annotated text produced for sorted pairwise-disjoint in-bounds
ranges: each gap of the original text is kept, each covered slice
`t[low..high]` is wrapped in braces. -/
def braced_shape (t : List Nat) : Nat → List (Nat × Nat) → List Nat
  | pos, [] => t.drop pos
  | pos, (a, b) :: rest =>
    (t.drop pos).take (a - pos) ++ [123] ++ (t.drop a).take (b + 1 - a) ++ [125] ++
      braced_shape t (b + 1) rest

theorem chain_lower : ∀ (rest : List (Nat × Nat)) (x : Nat × Nat),
    List.Chain' (fun r s : Nat × Nat => r.2 < s.1) (x :: rest) →
    (∀ r ∈ rest, r.1 < r.2) → ∀ r ∈ rest, x.2 < r.1 := by
  intro rest
  induction rest with
  | nil =>
    intro x _ _ r hr
    simp at hr
  | cons y l ih =>
    intro x hch hnd r hr
    have h1 : x.2 < y.1 := (List.chain'_cons.mp hch).1
    rcases List.mem_cons.mp hr with rfl | hr'
    · exact h1
    · have h2 := ih y (List.chain'_cons.mp hch).2 (fun r hr => hnd r (by simp [hr])) r hr'
      have hy : y.1 < y.2 := hnd y (by simp)
      omega

theorem brace_ins_eq_nil (R : List (Nat × Nat)) (p : Nat)
    (h : ∀ r ∈ R, r.1 ≠ p ∧ r.2 + 1 ≠ p) : brace_ins R p = [] := by
  unfold brace_ins
  rw [List.countP_eq_zero.mpr (fun r hr => by simpa using (h r hr).2),
    List.countP_eq_zero.mpr (fun r hr => by simpa using (h r hr).1)]
  rfl

theorem brace_ins_cons_ne (a b p : Nat) (rest : List (Nat × Nat)) (ha : a ≠ p) :
    brace_ins ((a, b) :: rest) p =
      (if b + 1 = p then [125] else []) ++ brace_ins rest p := by
  unfold brace_ins
  rw [List.countP_cons, List.countP_cons]
  by_cases hb : b + 1 = p
  · subst hb
    simp [ha, List.replicate_succ]
  · simp [ha, hb]

theorem brace_ins_cons_open (a b : Nat) (rest : List (Nat × Nat))
    (hb : b + 1 ≠ a) (h : ∀ r ∈ rest, r.1 ≠ a ∧ r.2 + 1 ≠ a) :
    brace_ins ((a, b) :: rest) a = [123] := by
  unfold brace_ins
  rw [List.countP_cons, List.countP_cons,
    List.countP_eq_zero.mpr (fun r hr => by simpa using (h r hr).2),
    List.countP_eq_zero.mpr (fun r hr => by simpa using (h r hr).1)]
  simp [hb]

theorem range'_split (s m n : Nat) :
    List.range' s (m + n) = List.range' s m ++ List.range' (s + m) n := by
  have h := List.range'_append s m n 1
  simp only [one_mul] at h
  rw [Nat.add_comm m n]
  exact h.symm

theorem slice_merge (t : List Nat) (a k : Nat) :
    (t.drop a).take 1 ++ (t.drop (a + 1)).take k = (t.drop a).take (1 + k) := by
  rw [List.take_add, List.drop_drop]

theorem pw_from (t : List Nat) :
    ∀ (R : List (Nat × Nat)) (pos : Nat),
      pos ≤ t.length →
      (∀ r ∈ R, pos ≤ r.1 ∧ r.1 < r.2 ∧ r.2 + 1 ≤ t.length) →
      List.Chain' (fun r s : Nat × Nat => r.2 < s.1) R →
      (List.range' pos (t.length - pos)).flatMap
          (fun i => brace_ins R i ++ (t.drop i).take 1) ++ brace_ins R t.length =
        braced_shape t pos R := by
  intro R
  induction R with
  | nil =>
    intro pos hpos _ _
    rw [flatMap_congr_mem _ (fun i => (t.drop i).take 1) _
      (fun i _ => by
        show brace_ins [] i ++ (t.drop i).take 1 = (t.drop i).take 1
        rfl)]
    rw [flatMap_take_one_range' t (t.length - pos) pos]
    show (t.drop pos).take (t.length - pos) ++ brace_ins [] t.length = braced_shape t pos []
    rw [show t.length - pos = (t.drop pos).length from (List.length_drop pos t).symm,
      List.take_length]
    simp [braced_shape, brace_ins]
  | cons hd rest ih =>
    obtain ⟨a, b⟩ := hd
    intro pos hpos hf hchain
    obtain ⟨hposa, hab, hblen⟩ := hf (a, b) (by simp)
    have hrest_lb : ∀ r ∈ rest, b < r.1 :=
      chain_lower rest (a, b) hchain (fun r hr => (hf r (by simp [hr])).2.1)
    have hfr : ∀ r ∈ rest, b + 1 ≤ r.1 ∧ r.1 < r.2 ∧ r.2 + 1 ≤ t.length := fun r hr =>
      ⟨by have := hrest_lb r hr; omega, (hf r (by simp [hr])).2⟩
    have hempty : ∀ i, i < a ∨ (a < i ∧ i ≤ b) → brace_ins ((a, b) :: rest) i = [] := by
      intro i hi
      refine brace_ins_eq_nil _ i (fun r hr => ?_)
      rcases List.mem_cons.mp hr with rfl | hr'
      · constructor <;> omega
      · have := hfr r hr'
        constructor <;> omega
    have hopen : brace_ins ((a, b) :: rest) a = [123] := by
      refine brace_ins_cons_open a b rest (by omega) (fun r hr => ?_)
      have := hfr r hr
      constructor <;> omega
    have hcons : ∀ p, b + 1 ≤ p → brace_ins ((a, b) :: rest) p =
        (if b + 1 = p then [125] else []) ++ brace_ins rest p := by
      intro p hp
      exact brace_ins_cons_ne a b p rest (by omega)
    have hsplit : t.length - pos = (a - pos) + (1 + ((b - a) + (t.length - (b + 1)))) := by
      omega
    rw [hsplit, range'_split, range'_split, range'_split,
      show pos + (a - pos) = a from by omega, show a + 1 + (b - a) = b + 1 from by omega,
      List.flatMap_append, List.flatMap_append, List.flatMap_append]
    have hchunk1 : (List.range' pos (a - pos)).flatMap
        (fun i => brace_ins ((a, b) :: rest) i ++ (t.drop i).take 1) =
        (t.drop pos).take (a - pos) := by
      rw [flatMap_congr_mem _ (fun i => (t.drop i).take 1) _
        (fun i hi => by
          have hm := List.mem_range'_1.mp hi
          show brace_ins ((a, b) :: rest) i ++ (t.drop i).take 1 = (t.drop i).take 1
          rw [hempty i (Or.inl (by omega))]
          rfl)]
      exact flatMap_take_one_range' t (a - pos) pos
    have hchunk2 : (List.range' a 1).flatMap
        (fun i => brace_ins ((a, b) :: rest) i ++ (t.drop i).take 1) =
        [123] ++ (t.drop a).take 1 := by
      show brace_ins ((a, b) :: rest) a ++ (t.drop a).take 1 ++ [] = _
      rw [hopen]
      simp
    have hchunk3 : (List.range' (a + 1) (b - a)).flatMap
        (fun i => brace_ins ((a, b) :: rest) i ++ (t.drop i).take 1) =
        (t.drop (a + 1)).take (b - a) := by
      rw [flatMap_congr_mem _ (fun i => (t.drop i).take 1) _
        (fun i hi => by
          have hm := List.mem_range'_1.mp hi
          show brace_ins ((a, b) :: rest) i ++ (t.drop i).take 1 = (t.drop i).take 1
          rw [hempty i (Or.inr (by omega))]
          rfl)]
      exact flatMap_take_one_range' t (b - a) (a + 1)
    rw [hchunk1, hchunk2, hchunk3]
    by_cases hend : b + 1 = t.length
    · have hrest_nil : rest = [] := by
        cases rest with
        | nil => rfl
        | cons r rs =>
          exfalso
          have h1 := hfr r (by simp)
          omega
      subst hrest_nil
      have htail : brace_ins [(a, b)] t.length = [125] := by
        rw [brace_ins_cons_ne a b t.length [] (by omega), if_pos hend]
        rfl
      rw [show t.length - (b + 1) = 0 from by omega, htail]
      simp only [List.range'_zero, List.flatMap_nil, braced_shape]
      rw [show b + 1 - a = 1 + (b - a) from by omega, ← slice_merge,
        show t.drop (b + 1) = [] from List.drop_eq_nil_of_le (by omega)]
      simp [List.append_assoc]
    · have hlast : t.length - (b + 1) = 1 + (t.length - (b + 2)) := by omega
      rw [hlast, range'_split]
      rw [List.flatMap_append]
      have hchunk4a : (List.range' (b + 1) 1).flatMap
          (fun i => brace_ins ((a, b) :: rest) i ++ (t.drop i).take 1) =
          [125] ++ (brace_ins rest (b + 1) ++ (t.drop (b + 1)).take 1) := by
        show brace_ins ((a, b) :: rest) (b + 1) ++ (t.drop (b + 1)).take 1 ++ [] = _
        rw [hcons (b + 1) (le_refl _), if_pos rfl]
        simp [List.append_assoc]
      have hchunk4b : (List.range' (b + 1 + 1) (t.length - (b + 2))).flatMap
          (fun i => brace_ins ((a, b) :: rest) i ++ (t.drop i).take 1) =
          (List.range' (b + 1 + 1) (t.length - (b + 2))).flatMap
            (fun i => brace_ins rest i ++ (t.drop i).take 1) := by
        refine flatMap_congr_mem _ _ _ (fun i hi => ?_)
        have hm := List.mem_range'_1.mp hi
        show brace_ins ((a, b) :: rest) i ++ (t.drop i).take 1 =
            brace_ins rest i ++ (t.drop i).take 1
        rw [hcons i (by omega), if_neg (by omega)]
        rfl
      have htail : brace_ins ((a, b) :: rest) t.length = brace_ins rest t.length := by
        rw [hcons t.length (by omega), if_neg (by omega)]
        rfl
      rw [hchunk4a, hchunk4b, htail]
      have hih := ih (b + 1) (by omega) hfr hchain.tail
      rw [show t.length - (b + 1) = 1 + (t.length - (b + 2)) from by omega, range'_split]
        at hih
      rw [List.flatMap_append] at hih
      have hih1 : (List.range' (b + 1) 1).flatMap
          (fun i => brace_ins rest i ++ (t.drop i).take 1) =
          brace_ins rest (b + 1) ++ (t.drop (b + 1)).take 1 := by
        show brace_ins rest (b + 1) ++ (t.drop (b + 1)).take 1 ++ [] = _
        simp
      rw [hih1] at hih
      simp only [braced_shape]
      rw [← hih, show b + 1 - a = 1 + (b - a) from by omega, ← slice_merge]
      simp [List.append_assoc]

theorem segStep_fold_depth0 : ∀ (g cur : List Nat) (res : List (List Nat)),
    (∀ c ∈ g, c ≠ 123 ∧ c ≠ 125) →
    g.foldl segStep (0, cur, res) = (0, cur, res) := by
  intro g
  induction g with
  | nil => intro cur res _; rfl
  | cons c g ih =>
    intro cur res h
    have hc := h c (by simp)
    have hstep : segStep (0, cur, res) c = (0, cur, res) := by
      unfold segStep
      have h1 : (c == 123) = false := by simpa using hc.1
      have h2 : (c == 125) = false := by simpa using hc.2
      simp [h1, h2]
    simp only [List.foldl_cons, hstep]
    exact ih cur res (fun c hc => h c (by simp [hc]))

theorem segStep_fold_depth1 : ∀ (g cur : List Nat) (res : List (List Nat)),
    (∀ c ∈ g, c ≠ 123 ∧ c ≠ 125) →
    g.foldl segStep (1, cur, res) = (1, cur ++ g, res) := by
  intro g
  induction g with
  | nil => intro cur res _; simp
  | cons c g ih =>
    intro cur res h
    have hc := h c (by simp)
    have hstep : segStep (1, cur, res) c = (1, cur ++ [c], res) := by
      unfold segStep
      have h1 : (c == 123) = false := by simpa using hc.1
      have h2 : (c == 125) = false := by simpa using hc.2
      simp [h1, h2]
    simp only [List.foldl_cons, hstep]
    rw [ih (cur ++ [c]) res (fun c hc => h c (by simp [hc]))]
    simp

theorem scan_braced_shape (t : List Nat) (hnb : ∀ c ∈ t, c ≠ 123 ∧ c ≠ 125) :
    ∀ (R : List (Nat × Nat)) (pos : Nat) (cur : List Nat) (res : List (List Nat)),
      ∃ cur2, (braced_shape t pos R).foldl segStep (0, cur, res) =
        (0, cur2, res ++ R.map (fun r => stripBytes ((t.drop r.1).take (r.2 + 1 - r.1)))) := by
  intro R
  induction R with
  | nil =>
    intro pos cur res
    refine ⟨cur, ?_⟩
    unfold braced_shape
    rw [segStep_fold_depth0 _ _ _
      (fun c hc => hnb c (List.mem_of_mem_drop hc))]
    simp
  | cons hd rest ih =>
    obtain ⟨a, b⟩ := hd
    intro pos cur res
    simp only [braced_shape, List.foldl_append]
    rw [segStep_fold_depth0 _ _ _
      (fun c hc => hnb c (List.mem_of_mem_drop (List.mem_of_mem_take hc)))]
    have hopen : ([123] : List Nat).foldl segStep (0, cur, res) = (1, [], res) := by
      simp [segStep]
    rw [hopen]
    rw [segStep_fold_depth1 _ _ _
      (fun c hc => hnb c (List.mem_of_mem_drop (List.mem_of_mem_take hc)))]
    have hclose : ([125] : List Nat).foldl segStep
        (1, [] ++ (t.drop a).take (b + 1 - a), res) =
        (0, (t.drop a).take (b + 1 - a),
          res ++ [stripBytes ((t.drop a).take (b + 1 - a))]) := by
      simp [segStep]
    rw [hclose]
    obtain ⟨cur2, hrest⟩ := ih (b + 1) ((t.drop a).take (b + 1 - a))
      (res ++ [stripBytes ((t.drop a).take (b + 1 - a))])
    refine ⟨cur2, ?_⟩
    rw [hrest]
    simp

theorem pw_from_zero (t : List Nat) (R : List (Nat × Nat))
    (hf : ∀ r ∈ R, 0 ≤ r.1 ∧ r.1 < r.2 ∧ r.2 + 1 ≤ t.length)
    (hchain : List.Chain' (fun r s : Nat × Nat => r.2 < s.1) R) :
    (List.range t.length).flatMap
        (fun i => brace_ins R i ++ (t.drop i).take 1) ++ brace_ins R t.length =
      braced_shape t 0 R := by
  have h := pw_from t R 0 (Nat.zero_le _) hf hchain
  rw [Nat.sub_zero] at h
  rw [List.range_eq_range' t.length]
  exact h

/-- C8 (amended): the segment round trip holds once the range list is
sorted and pairwise disjoint and the text is brace-free, and each
extracted segment is the covered substring `T[low..high]` *stripped* of
leading/trailing whitespace (the extractor applies `strip()` to every
segment): for every brace-free text `t` and list `R` of non-degenerate
(`low < high`), in-bounds (`high + 1 ≤ len`), strictly ordered and
disjoint (`high_i < low_{i+1}`) ranges,
`extract(annotate(t, R)).segments = map (strip ∘ slice) R`.  Without the
disjointness/order condition the count can differ (nested braces), and
without stripping the content can differ — see the counterexample. -/
theorem extract_annotate_roundtrip (t : List Nat) (R : List (Nat × Nat))
    (hnb : ∀ c ∈ t, c ≠ 123 ∧ c ≠ 125)
    (hnd : ∀ r ∈ R, r.1 < r.2)
    (hbound : ∀ r ∈ R, r.2 + 1 ≤ t.length)
    (hchain : List.Chain' (fun r s : Nat × Nat => r.2 < s.1) R) :
    (extract_top_level_segments (insert_braces t R)).2 =
      R.map (fun r => stripBytes ((t.drop r.1).take (r.2 + 1 - r.1))) := by
  have hfilter : R.filter (fun r => r.1 < r.2) = R :=
    List.filter_eq_self.mpr (fun r hr => by simpa using hnd r hr)
  have h3 := insert_braces_pointwise t R (fun r hr _ => hbound r hr)
  rw [hfilter] at h3
  have hshape : insert_braces t R = braced_shape t 0 R := by
    rw [h3]
    exact pw_from_zero t R (fun r hr => ⟨Nat.zero_le _, hnd r hr, hbound r hr⟩) hchain
  rw [hshape]
  show ((braced_shape t 0 R).foldl segStep (0, [], [])).2.2 = _
  obtain ⟨cur2, hfold⟩ := scan_braced_shape t hnb R 0 [] []
  rw [hfold]
  simp

/-- Witness for the amended C8 at the spec's own scenario: annotating
"Deal 10 damage." with `(5, 6)` and extracting yields the single segment
"10". -/
theorem extract_annotate_roundtrip_witness :
    (extract_top_level_segments
        (insert_braces [68, 101, 97, 108, 32, 49, 48, 32, 100, 97, 109, 97, 103, 101, 46]
          [(5, 6)])).2 =
      ([(5, 6)] : List (Nat × Nat)).map
        (fun r =>
          stripBytes
            ((([68, 101, 97, 108, 32, 49, 48, 32, 100, 97, 109, 97, 103, 101, 46] :
              List Nat).drop r.1).take (r.2 + 1 - r.1))) :=
  extract_annotate_roundtrip _ [(5, 6)] (by decide) (by decide) (by decide)
    (List.chain'_singleton _)

/-! ### unbraced_brace_indices: src/core/part_parser.py -/

/-- The backfill of `unbraced_brace_indices`
(`for k in range(len(ans) - 1, -1, -1): if ans[k] != -1: break; ans[k] = j`)
on the reversed entry list: replace the leading (i.e. originally trailing)
run of `-1` by `v`, stopping at the first other value. -/
def backfillRev : List Int → Int → List Int
  | [], _ => []
  | x :: xs, v => if x = -1 then v :: backfillRev xs v else x :: xs

/-- The backfill on the entry list itself. -/
def backfill (ans : List Int) (v : Int) : List Int :=
  (backfillRev ans.reverse v).reverse

/-- The character loop of `unbraced_brace_indices`: `j` is the 0-based
plain-text position of the last non-brace byte seen so far (`-1`
initially); a `{` appends `-1`, a `}` appends `j`, and a non-brace byte
increments `j`, backfills the trailing `-1` run with the new `j`, and
appends nothing. -/
def ubiLoop : List Nat → Int → List Int → List Int
  | [], _, ans => ans
  | c :: rest, j, ans =>
    if c == 123 then ubiLoop rest j (ans ++ [-1])
    else if c == 125 then ubiLoop rest j (ans ++ [j])
    else ubiLoop rest (j + 1) (backfill ans (j + 1))

/-- `unbraced_brace_indices(in_str)` from src/core/part_parser.py, on the
UTF-8 byte sequence of the input. -/
def unbraced_brace_indices (b : List Nat) : List Int :=
  ubiLoop b (-1) []

/-- C9 counterexample: on the single non-brace byte "a" the function
returns the empty list — non-brace bytes never append an entry (the
`else` branch only increments `j` and backfills), so the claimed
"one entry per byte of the input" is false. -/
theorem unbraced_brace_indices_counterexample :
    (unbraced_brace_indices [97]).length = 0 ∧
      ¬(unbraced_brace_indices [97]).length = [97].length := by
  decide

/-- Brace-byte test (`c == 123` / `c == 125`). -/
def isBraceB (c : Nat) : Bool := c == 123 || c == 125

/-- Does a following non-brace byte exist? -/
def hasNonBrace (l : List Nat) : Bool := l.any (fun c => !isBraceB c)

/-- Is the brace run up to the next non-brace byte free of `}`?  A `}`
in that run whose `j` is not `-1` is appended as a non-`-1` entry and
blocks the backfill from reaching earlier pending entries. -/
def noCloserBeforePlain (l : List Nat) : Bool :=
  (l.takeWhile isBraceB).all (fun c => !(c == 125))

/-- Declarative per-brace entry values of `unbraced_brace_indices`,
threading `j` = (plain position of the last preceding non-brace byte, or
`-1`).  A `{` records the plain position `j + 1` of the nearest following
non-brace byte provided one exists and no blocking `}` (one with a
preceding non-brace) stands between; otherwise `-1`.  A `}` records the
plain position `j` of the nearest preceding non-brace byte; with no
preceding non-brace it records the position 0 of the nearest following
non-brace byte, or `-1` if none.  Non-brace bytes record nothing. -/
def specEntriesJ : List Nat → Int → List Int
  | [], _ => []
  | c :: rest, j =>
    if c == 123 then
      (if hasNonBrace rest ∧ (j = -1 ∨ noCloserBeforePlain rest) then j + 1 else -1) ::
        specEntriesJ rest j
    else if c == 125 then
      (if j = -1 then (if hasNonBrace rest then 0 else -1) else j) :: specEntriesJ rest j
    else specEntriesJ rest (j + 1)

theorem backfillRev_cons (x : Int) (xs : List Int) (v : Int) :
    backfillRev (x :: xs) v = if x = -1 then v :: backfillRev xs v else x :: xs := rfl

theorem specEntriesJ_cons (c : Nat) (r : List Nat) (j : Int) :
    specEntriesJ (c :: r) j =
      if c == 123 then
        (if hasNonBrace r ∧ (j = -1 ∨ noCloserBeforePlain r) then j + 1 else -1) ::
          specEntriesJ r j
      else if c == 125 then
        (if j = -1 then (if hasNonBrace r then 0 else -1) else j) :: specEntriesJ r j
      else specEntriesJ r (j + 1) := rfl

theorem ubiLoop_cons (c : Nat) (rest : List Nat) (j : Int) (ans : List Int) :
    ubiLoop (c :: rest) j ans =
      if c == 123 then ubiLoop rest j (ans ++ [-1])
      else if c == 125 then ubiLoop rest j (ans ++ [j])
      else ubiLoop rest (j + 1) (backfill ans (j + 1)) := rfl

theorem backfill_append_neg_one (l : List Int) (v : Int) :
    backfill (l ++ [-1]) v = backfill l v ++ [v] := by
  unfold backfill
  rw [List.reverse_append]
  show (backfillRev ((-1 : Int) :: l.reverse) v).reverse = _
  rw [backfillRev_cons, if_pos rfl]
  simp

theorem backfill_append_ne (l : List Int) (x v : Int) (hx : ¬x = -1) :
    backfill (l ++ [x]) v = l ++ [x] := by
  unfold backfill
  rw [List.reverse_append]
  show (backfillRev (x :: l.reverse) v).reverse = _
  rw [backfillRev_cons, if_neg hx]
  simp

theorem backfillRev_idem (v w : Int) (hv : ¬v = -1) :
    ∀ lr : List Int, backfillRev (backfillRev lr v) w = backfillRev lr v := by
  intro lr
  cases lr with
  | nil => rfl
  | cons x xs =>
    rw [backfillRev_cons]
    by_cases hx : x = -1
    · rw [if_pos hx, backfillRev_cons, if_neg hv]
    · rw [if_neg hx, backfillRev_cons, if_neg hx]

theorem backfill_backfill (l : List Int) (v w : Int) (hv : ¬v = -1) :
    backfill (backfill l v) w = backfill l v := by
  unfold backfill
  rw [List.reverse_reverse, backfillRev_idem v w hv]

theorem hasNonBrace_cons (c : Nat) (r : List Nat) :
    hasNonBrace (c :: r) = (!isBraceB c || hasNonBrace r) := by
  simp [hasNonBrace]

theorem noCloser_cons_open (r : List Nat) :
    noCloserBeforePlain (123 :: r) = noCloserBeforePlain r := by
  simp [noCloserBeforePlain, List.takeWhile_cons, isBraceB]

theorem noCloser_cons_close (r : List Nat) :
    noCloserBeforePlain (125 :: r) = false := by
  simp [noCloserBeforePlain, List.takeWhile_cons, isBraceB]

theorem noCloser_cons_plain (c : Nat) (r : List Nat) (hc : isBraceB c = false) :
    noCloserBeforePlain (c :: r) = true := by
  simp [noCloserBeforePlain, List.takeWhile_cons, hc]

theorem ubiLoop_cons_plain (c : Nat) (rest : List Nat) (j : Int) (ans : List Int)
    (h1 : (c == 123) = false) (h2 : (c == 125) = false) :
    ubiLoop (c :: rest) j ans = ubiLoop rest (j + 1) (backfill ans (j + 1)) := by
  rw [ubiLoop_cons, h1, h2]
  simp

theorem specEntriesJ_cons_plain (c : Nat) (r : List Nat) (j : Int)
    (h1 : (c == 123) = false) (h2 : (c == 125) = false) :
    specEntriesJ (c :: r) j = specEntriesJ r (j + 1) := by
  rw [specEntriesJ_cons, h1, h2]
  simp

theorem ubiLoop_specJ : ∀ (rest : List Nat) (j : Int) (ans : List Int), -1 ≤ j →
    ubiLoop rest j ans =
      (if hasNonBrace rest ∧ (j = -1 ∨ noCloserBeforePlain rest) then backfill ans (j + 1)
        else ans) ++ specEntriesJ rest j := by
  intro rest
  induction rest with
  | nil =>
    intro j ans _
    simp [ubiLoop, hasNonBrace, specEntriesJ]
  | cons c r ih =>
    intro j ans hj
    by_cases hc1 : c = 123
    · subst hc1
      have hL : ubiLoop (123 :: r) j ans = ubiLoop r j (ans ++ [-1]) := rfl
      have hS : specEntriesJ (123 :: r) j =
          (if hasNonBrace r = true ∧ (j = -1 ∨ noCloserBeforePlain r = true) then j + 1
            else -1) :: specEntriesJ r j := rfl
      have hnb : hasNonBrace (123 :: r) = hasNonBrace r := by
        rw [hasNonBrace_cons]
        simp [isBraceB]
      rw [hL, ih j (ans ++ [-1]) hj, hS, hnb, noCloser_cons_open]
      by_cases hC : hasNonBrace r = true ∧ (j = -1 ∨ noCloserBeforePlain r = true)
      · rw [if_pos hC, if_pos hC, if_pos hC, backfill_append_neg_one]
        simp
      · rw [if_neg hC, if_neg hC, if_neg hC]
        simp
    · by_cases hc2 : c = 125
      · subst hc2
        have hL : ubiLoop (125 :: r) j ans = ubiLoop r j (ans ++ [j]) := rfl
        have hS : specEntriesJ (125 :: r) j =
            (if j = -1 then (if hasNonBrace r = true then 0 else -1) else j) ::
              specEntriesJ r j := rfl
        have hnb : hasNonBrace (125 :: r) = hasNonBrace r := by
          rw [hasNonBrace_cons]
          simp [isBraceB]
        rw [hL, ih j (ans ++ [j]) hj, hS, hnb, noCloser_cons_close]
        by_cases hjm : j = -1
        · subst hjm
          by_cases hnbr : hasNonBrace r = true
          · rw [if_pos (And.intro hnbr (Or.inl rfl)),
              if_pos (And.intro hnbr (Or.inl rfl)), if_pos rfl, if_pos hnbr,
              backfill_append_neg_one]
            simp
          · have hnC : ¬(hasNonBrace r = true ∧
                ((-1 : Int) = -1 ∨ noCloserBeforePlain r = true)) := fun h => hnbr h.1
            have hnC2 : ¬(hasNonBrace r = true ∧
                ((-1 : Int) = -1 ∨ false = true)) := fun h => hnbr h.1
            rw [if_neg hnC, if_neg hnC2, if_pos rfl, if_neg hnbr]
            simp
        · have hnC2 : ¬(hasNonBrace r = true ∧ (j = -1 ∨ false = true)) := by
            intro h
            rcases h.2 with h2 | h2
            · exact hjm h2
            · simp at h2
          rw [if_neg hnC2, if_neg hjm]
          by_cases hC : hasNonBrace r = true ∧ (j = -1 ∨ noCloserBeforePlain r = true)
          · rw [if_pos hC, backfill_append_ne _ _ _ hjm]
            simp
          · rw [if_neg hC]
            simp
      · have hcb : isBraceB c = false := by
          simp [isBraceB, hc1, hc2]
        have hc1' : (c == 123) = false := by simpa using hc1
        have hc2' : (c == 125) = false := by simpa using hc2
        rw [ubiLoop_cons_plain c r j ans hc1' hc2',
          ih (j + 1) (backfill ans (j + 1)) (by omega),
          specEntriesJ_cons_plain c r j hc1' hc2']
        have hnb : hasNonBrace (c :: r) = true := by
          rw [hasNonBrace_cons, hcb]
          simp
        rw [hnb, noCloser_cons_plain c r hcb,
          if_pos (And.intro rfl (Or.inr rfl))]
        by_cases hC : hasNonBrace r = true ∧ (j + 1 = -1 ∨ noCloserBeforePlain r = true)
        · rw [if_pos hC, backfill_backfill _ _ _ (by omega)]
        · rw [if_neg hC]

theorem specEntriesJ_length : ∀ (b : List Nat) (j : Int),
    (specEntriesJ b j).length = (b.filter isBraceB).length := by
  intro b
  induction b with
  | nil => intro j; rfl
  | cons c r ih =>
    intro j
    by_cases hc1 : c = 123
    · subst hc1
      rw [specEntriesJ_cons]
      simp [List.filter_cons, isBraceB, ih]
    · by_cases hc2 : c = 125
      · subst hc2
        rw [specEntriesJ_cons]
        simp [List.filter_cons, isBraceB, ih]
      · rw [specEntriesJ_cons_plain c r j (by simpa using hc1) (by simpa using hc2),
          ih (j + 1)]
        simp [List.filter_cons, isBraceB, hc1, hc2]

/-- C9 (amended): `unbraced_brace_indices` returns one entry per *brace*
byte of the input (non-brace bytes contribute no entry), in order:
a `}` with a preceding non-brace byte records that byte's 0-based plain
position; a `}` with no preceding non-brace records the plain position 0
of the nearest following non-brace byte, or `-1` if none follows; a `{`
records the plain position of the nearest following non-brace byte
provided one exists and the braces between contain no blocking `}` (one
whose own recorded value is not `-1`) — otherwise it stays `-1`. -/
theorem unbraced_brace_indices_amended (b : List Nat) :
    unbraced_brace_indices b = specEntriesJ b (-1) ∧
      (unbraced_brace_indices b).length = (b.filter isBraceB).length := by
  have h := ubiLoop_specJ b (-1) [] (le_refl _)
  have hb : unbraced_brace_indices b = specEntriesJ b (-1) := by
    unfold unbraced_brace_indices
    rw [h]
    by_cases hC : hasNonBrace b = true ∧ ((-1 : Int) = -1 ∨ noCloserBeforePlain b = true)
    · rw [if_pos (by simpa using hC)]
      rfl
    · rw [if_neg (by simpa using hC)]
      rfl
  exact ⟨hb, by rw [hb, specEntriesJ_length]⟩

end Mdtext
